import Mathlib

/-!
Verification of the tabular-data ingestion-and-reshaping pipeline described by
the specification of the coding-for-economists repository (fetch → parse →
normalize → filter/aggregate → export).  The repository's notebooks drive this
pipeline through third-party dataframe calls (pd.read_csv, df.loc, sort_values,
groupby, transform, sample, assign, read_html, to_latex); the pipeline
components themselves are not part of the repository's sources, so every
component below is modelled from the specification's contracts and checked
against the scenarios recorded there.
-/

namespace CfE

/-- Modelled from the spec: a cell value of a `Table` — string, numeric
(integer or floating point, modelled as a rational), date, or null.
The notebooks never build date cells, but the data model names them. -/
inductive Value where
  | str (s : String)
  | num (q : Rat)
  | date (d : Nat)
  | null
deriving DecidableEq, Repr

/-- Modelled from the spec: a Table is an ordered sequence of named columns of
equal length; row order is meaningful.  Rows are stored row-major, one list of
cells per row, in the column order of `cols`. -/
structure Table where
  cols : List String
  rows : List (List Value)
deriving DecidableEq, Repr

/-- Well-formedness from the spec's data model: column names are unique and
every row has exactly one cell per column. -/
def Table.WF (t : Table) : Prop :=
  t.cols.Nodup ∧ ∀ r ∈ t.rows, r.length = t.cols.length

/-- Content kinds of a `FetchResult` that parse to a single Table. -/
inductive ContentKind where
  | csv
  | json
deriving DecidableEq, Repr

/-- Modelled from the spec: raw content plus a source descriptor and a
content-kind hint, produced by the Fetcher and consumed by the Parser. -/
structure FetchResult where
  source : String
  kind : ContentKind
  content : List Char
deriving DecidableEq, Repr

/-! ### CSV parsing (Parser component, CSV branch)

A character-level CSV reader: fields are separated by commas, records by
newlines, and a field may be quoted with double quotes, an embedded quote
being written as two quotes.  Cells are numerically coerced after reading,
as the quickstart notebook's `pd.read_csv` loads already-typed columns. -/

/-- One unquoted CSV field: the characters up to the next separator. -/
def takeCell : List Char → List Char × List Char
  | [] => ([], [])
  | c :: cs =>
    if c = ',' ∨ c = '\n' then ([], c :: cs)
    else
      let p := takeCell cs
      (c :: p.1, p.2)

/-- The body of one quoted CSV field, the opening quote already consumed:
reads up to the closing quote, decoding a doubled quote as a literal one. -/
def takeQuoted : List Char → Option (List Char × List Char)
  | [] => none
  | c :: cs =>
    if c = '"' then
      match cs with
      | [] => some ([], [])
      | c2 :: cs2 =>
        if c2 = '"' then (takeQuoted cs2).map (fun p => ('"' :: p.1, p.2))
        else some ([], c2 :: cs2)
    else (takeQuoted cs).map (fun p => (c :: p.1, p.2))

/-- One CSV field, quoted or not. -/
def parseCell (l : List Char) : Option (List Char × List Char) :=
  match l with
  | [] => some ([], [])
  | c :: cs => if c = '"' then takeQuoted cs else some (takeCell (c :: cs))

/-- The comma-separated fields of one CSV record.  The fuel bounds the number
of fields and is instantiated with the length of the remaining input. -/
def parseCellsAux : Nat → List Char → Option (List (List Char) × List Char)
  | 0, _ => none
  | fuel + 1, l =>
    match parseCell l with
    | none => none
    | some (cell, rest) =>
      match rest with
      | [] => some ([cell], [])
      | c :: r =>
        if c = ',' then (parseCellsAux fuel r).map (fun p => (cell :: p.1, p.2))
        else some ([cell], c :: r)

/-- The newline-separated records of a CSV document; a trailing newline after
the last record is accepted.  The fuel bounds the number of records. -/
def parseRowsAux : Nat → List Char → Option (List (List (List Char)))
  | 0, _ => none
  | fuel + 1, l =>
    if l = [] then some []
    else
      match parseCellsAux (l.length + 1) l with
      | none => none
      | some (cells, rest) =>
        match rest with
        | [] => some [cells]
        | c :: r =>
          if c = '\n' then (parseRowsAux fuel r).map (fun rows => cells :: rows)
          else none

/-- All records of a CSV document, as lists of raw fields. -/
def csvRecords (l : List Char) : Option (List (List (List Char))) :=
  parseRowsAux (l.length + 1) l

/-- The natural number denoted by a list of decimal digits, if any. -/
def parseNatDigits (cs : List Char) : Option Nat :=
  if cs ≠ [] ∧ cs.all Char.isDigit then
    some (cs.foldl (fun a c => a * 10 + (c.toNat - 48)) 0)
  else none

/-- The integer denoted by a raw field, if any. -/
def parseIntChars : List Char → Option Int
  | '-' :: cs => (parseNatDigits cs).map (fun n => -(n : Int))
  | cs => (parseNatDigits cs).map (fun n => (n : Int))

/-- Numeric coercion of one raw CSV field: empty fields become null, decimal
integers become numbers, and anything else stays a string. -/
def coerceCell (cs : List Char) : Value :=
  if cs = [] then Value.null
  else
    match parseIntChars cs with
    | some n => Value.num (Rat.ofInt n)
    | none => Value.str (String.mk cs)

/-- Modelled from the spec: the CSV branch of the Parser.  A direct structural
parse of the raw content into a Table whose first record is the header; it
fails (`none`, the spec's MalformedDataError) when a record's field count
differs from the header's. -/
def csvParse (l : List Char) : Option Table :=
  match csvRecords l with
  | some ((h0 :: hs) :: rows) =>
    if rows.all (fun r => r.length == (h0 :: hs).length) then
      some ⟨(h0 :: hs).map String.mk, rows.map (fun r => r.map coerceCell)⟩
    else none
  | _ => none

/-! ### CSV export (Exporter component, delimited-text format) -/

/-- Decimal digits of a natural number. -/
def renderNat (n : Nat) : List Char :=
  Nat.toDigits 10 n

/-- Decimal rendering of an integer. -/
def renderInt (n : Int) : List Char :=
  if n < 0 then '-' :: renderNat n.natAbs else renderNat n.natAbs

/-- The text of one cell value in delimited output. -/
def renderValue : Value → List Char
  | Value.str s => s.toList
  | Value.num q => if q.den = 1 then renderInt q.num else renderInt q.num ++ '/' :: renderNat q.den
  | Value.date d => renderNat d
  | Value.null => []

/-- Whether a field's text needs CSV quoting. -/
def needsQuote (f : List Char) : Bool :=
  f.any (fun c => c = ',' || c = '\n' || c = '"')

/-- A field's text with every double quote doubled. -/
def escQuotes (f : List Char) : List Char :=
  f.flatMap (fun c => if c = '"' then ['"', '"'] else [c])

/-- One field in delimited output, quoted exactly when its text contains a
separator, a newline or a quote. -/
def renderField (f : List Char) : List Char :=
  if needsQuote f then '"' :: (escQuotes f ++ ['"']) else f

/-- Lists joined by a separator list. -/
def joinWith (sep : List Char) : List (List Char) → List Char
  | [] => []
  | [x] => x
  | x :: y :: l => x ++ sep ++ joinWith sep (y :: l)

/-- One CSV record: its fields rendered and comma-separated. -/
def renderLine (cells : List (List Char)) : List Char :=
  joinWith [','] (cells.map renderField)

/-- The records of a Table: the header of column names, then one record of
rendered cell texts per row. -/
def tableRecords (t : Table) : List (List (List Char)) :=
  t.cols.map String.toList :: t.rows.map (fun r => r.map renderValue)

/-- Modelled from the spec: the Exporter's delimited-text format.  Serializes
the Table as newline-terminated comma-separated records, the header first. -/
def csvExport (t : Table) : List Char :=
  (tableRecords t).flatMap (fun cells => renderLine cells ++ ['\n'])

/-! ### JSON parsing (Parser component, JSON branch)

A direct structural parse of a JSON array of flat objects (the
record-oriented layout the notebooks' API examples load): string values
without escape sequences, integer values, and nulls, with no interspersed
whitespace.  Inputs outside this fragment are rejected as malformed. -/

/-- The body of a JSON string, the opening quote already consumed: reads up
to the closing quote, rejecting backslash escapes and control characters. -/
def jsonStringAux : List Char → Option (List Char × List Char)
  | [] => none
  | c :: cs =>
    if c = '"' then some ([], cs)
    else if c = '\\' ∨ c.toNat < 32 then none
    else (jsonStringAux cs).map (fun p => (c :: p.1, p.2))

/-- A JSON integer literal: an optional minus sign and decimal digits. -/
def jsonNumber (l : List Char) : Option (Int × List Char) :=
  match l with
  | '-' :: cs =>
    let p := cs.span Char.isDigit
    (parseNatDigits p.1).map (fun n => (-(n : Int), p.2))
  | cs =>
    let p := cs.span Char.isDigit
    (parseNatDigits p.1).map (fun n => ((n : Int), p.2))

/-- One JSON value of the supported fragment: string, integer or null. -/
def jsonValue (l : List Char) : Option (Value × List Char) :=
  match l with
  | '"' :: cs => (jsonStringAux cs).map (fun p => (Value.str (String.mk p.1), p.2))
  | 'n' :: 'u' :: 'l' :: 'l' :: cs => some (Value.null, cs)
  | _ => (jsonNumber l).map (fun p => (Value.num (Rat.ofInt p.1), p.2))

/-- One `"key":value` member of a JSON object. -/
def jsonMember (l : List Char) : Option ((String × Value) × List Char) :=
  match l with
  | '"' :: cs =>
    match jsonStringAux cs with
    | some (k, ':' :: rest) => (jsonValue rest).map (fun p => ((String.mk k, p.1), p.2))
    | _ => none
  | _ => none

/-- The members of a JSON object, the opening brace already consumed, up to
and including the closing brace; empty objects are rejected. -/
def jsonMembersAux : Nat → List Char → Option (List (String × Value) × List Char)
  | 0, _ => none
  | fuel + 1, l =>
    match jsonMember l with
    | some (kv, ',' :: rest) => (jsonMembersAux fuel rest).map (fun p => (kv :: p.1, p.2))
    | some (kv, '}' :: rest) => some ([kv], rest)
    | _ => none

/-- One flat JSON object. -/
def jsonObject (l : List Char) : Option (List (String × Value) × List Char) :=
  match l with
  | '{' :: rest => jsonMembersAux (rest.length + 1) rest
  | _ => none

/-- The objects of a JSON array, the opening bracket already consumed, up to
the closing bracket at the very end of the input; empty arrays are rejected. -/
def jsonObjsAux : Nat → List Char → Option (List (List (String × Value)))
  | 0, _ => none
  | fuel + 1, l =>
    match jsonObject l with
    | some (ob, ',' :: rest) => (jsonObjsAux fuel rest).map (fun obs => ob :: obs)
    | some (ob, ']' :: rest) => if rest = [] then some [ob] else none
    | _ => none

/-- The Table named by a parsed list of JSON objects: the first object's keys
become the column names, each object's values one row.  Fails unless every
object lists exactly the same keys in the same order. -/
def jsonTableOf (objs : List (List (String × Value))) : Option Table :=
  match objs with
  | (m :: ms) :: obs =>
    if ((m :: ms) :: obs).all (fun o => o.map Prod.fst == (m :: ms).map Prod.fst) then
      some ⟨(m :: ms).map Prod.fst, ((m :: ms) :: obs).map (fun o => o.map Prod.snd)⟩
    else none
  | _ => none

/-- Modelled from the spec: the JSON branch of the Parser.  A direct
structural parse of a record-oriented JSON array into a Table; it fails
(`none`, the spec's MalformedDataError) on inputs outside the supported
fragment and on objects with differing keys. -/
def jsonParse (l : List Char) : Option Table :=
  match l with
  | [] => none
  | c :: rest =>
    if c = '[' then
      match jsonObjsAux (rest.length + 1) rest with
      | some objs => jsonTableOf objs
      | none => none
    else none

/-- Modelled from the spec: the Parser's dispatch on the declared or inferred
content kind of a `FetchResult`. -/
def parseFetch (f : FetchResult) : Option Table :=
  match f.kind with
  | ContentKind.csv => csvParse f.content
  | ContentKind.json => jsonParse f.content

/-! ### Transformer component

Modelled from the spec's Transformer contract: each operation takes a Table
(and a Query) and builds a new Table.  These mirror the quickstart
notebook's `df.loc` boolean filtering, `sort_values`, `groupby(...).mean`,
`groupby(...).transform`, `sample` and column assignment. -/

/-- The value of row `r` in the named column, null when the name is absent:
walks the column names and the row's cells in parallel. -/
def getCell : List String → List Value → String → Value
  | [], _, _ => Value.null
  | _, [], _ => Value.null
  | c :: cs, v :: vs, name => if c = name then v else getCell cs vs name

/-- Modelled from the spec: Filter keeps the rows satisfying a boolean
predicate over column values, in input order. -/
def Table.filterRows (t : Table) (p : List Value → Bool) : Table :=
  ⟨t.cols, t.rows.filter p⟩

/-- Modelled from the spec: Select projects to a named subset of columns,
failing (the spec's UnknownColumnError) when a name is absent. -/
def Table.selectCols (t : Table) (names : List String) : Option Table :=
  if names.all (fun n => t.cols.contains n) then
    some ⟨names, t.rows.map (fun r => names.map (fun n => getCell t.cols r n))⟩
  else none

/-- Lexicographic order on character lists (string ordering). -/
def charsLt : List Char → List Char → Bool
  | [], [] => false
  | [], _ :: _ => true
  | _ :: _, [] => false
  | c :: cs, d :: ds => if c < d then true else if d < c then false else charsLt cs ds

/-- Strict comparison of two cell values; values of different kinds and
nulls are incomparable. -/
def ltV : Value → Value → Bool
  | Value.num q, Value.num q' => q < q'
  | Value.str s, Value.str s' => charsLt s.toList s'.toList
  | Value.date d, Value.date d' => d < d'
  | _, _ => false

/-- The tuple of a row's sort-key values. -/
def keyTuple (keys : List (String × Bool)) (cols : List String) (r : List Value) : List Value :=
  keys.map (fun k => getCell cols r k.1)

/-- Lexicographic strict comparison of two rows under a sort specification;
each key holds a column name and an ascending flag. -/
def lexLt (keys : List (String × Bool)) (cols : List String) (r r' : List Value) : Bool :=
  match keys with
  | [] => false
  | (k, asc) :: ks =>
    let v := getCell cols r k
    let v' := getCell cols r' k
    let a := if asc then v else v'
    let b := if asc then v' else v
    if ltV a b then true
    else if ltV b a then false
    else lexLt ks cols r r'

/-- Insertion of an element into a sorted list, after every element that
strictly precedes it and before the rest: later arrivals never overtake. -/
def insOrdered {α : Type} (lt : α → α → Bool) (a : α) : List α → List α
  | [] => [a]
  | b :: l => if lt b a then b :: insOrdered lt a l else a :: b :: l

/-- Insertion sort by a strict comparison: a stable sort. -/
def stableSort {α : Type} (lt : α → α → Bool) : List α → List α
  | [] => []
  | a :: l => insOrdered lt a (stableSort lt l)

/-- Modelled from the spec: Sort orders rows by one or more columns ascending
or descending, ties broken by original row order (a stable sort). -/
def Table.sortValues (t : Table) (keys : List (String × Bool)) : Table :=
  ⟨t.cols, stableSort (lexLt keys t.cols) t.rows⟩

/-- The numeric content of a cell, if any. -/
def toNum : Value → Option Rat
  | Value.num q => some q
  | _ => none

/-- The distinct values of a list in order of first appearance. -/
def distinctVals (l : List Value) : List Value :=
  l.foldl (fun acc v => if acc.contains v then acc else acc ++ [v]) []

/-- The values of one named column, top to bottom. -/
def colValues (t : Table) (name : String) : List Value :=
  t.rows.map (fun r => getCell t.cols r name)

/-- Mean aggregation over a column's values: the mean of the numeric values
present, nulls and non-numbers skipped; null when none are numeric. -/
def meanAgg (vs : List Value) : Value :=
  let xs := vs.filterMap toNum
  if xs.length = 0 then Value.null else Value.num (xs.sum / (xs.length : Rat))

/-- The partition of a Table's rows holding one group-key value. -/
def groupRows (t : Table) (key : String) (k : Value) : List (List Value) :=
  t.rows.filter (fun r => getCell t.cols r key == k)

/-- Modelled from the spec: Group+Aggregate with mean aggregation — one
output row per distinct group-key value, holding the key and the mean of
the value column over that partition (the notebook's
`df.groupby("species")[...].mean()`). -/
def Table.groupMean (t : Table) (key val : String) : Table :=
  ⟨[key, val],
    (distinctVals (colValues t key)).map
      (fun k => [k, meanAgg ((groupRows t key k).map (fun r => getCell t.cols r val))])⟩

/-- Subtraction of numeric cells, null otherwise. -/
def subV : Value → Value → Value
  | Value.num a, Value.num b => Value.num (a - b)
  | _, _ => Value.null

/-- Modelled from the spec: Transform-within-group computes a per-partition
aggregate and broadcasts it back to every row of the partition, here as the
notebook's demeaning `groupby("species")["mass"].transform(x - x.mean())`,
appended as a new column. -/
def Table.transformDemean (t : Table) (key val newName : String) : Table :=
  ⟨t.cols ++ [newName],
    t.rows.map (fun r =>
      r ++ [subV (getCell t.cols r val)
        (meanAgg ((groupRows t key (getCell t.cols r key)).map
          (fun r' => getCell t.cols r' val)))])⟩

/-- A linear congruential step: the pseudo-random generator state update. -/
def lcg (s : Nat) : Nat := (1664525 * s + 1013904223) % 4294967296

/-- Modelled from the spec and the notebook's `np.random.seed(10)`: the
generator state determined by a seed. -/
def seedRng (seed : Nat) : Nat := lcg (seed % 4294967296)

/-- Selection of `n` rows without replacement, each drawn at the index given
by the current generator state. -/
def pickRows : Nat → Nat → List (List Value) → List (List Value)
  | 0, _, _ => []
  | _ + 1, _, [] => []
  | n + 1, st, r :: rs =>
    let i := st % (r :: rs).length
    (r :: rs).getD i [] :: pickRows n (lcg st) ((r :: rs).eraseIdx i)

/-- Modelled from the spec: Sample returns a random subset of `n` rows
without replacement, failing (the spec's InvalidArgumentError) when `n`
exceeds the row count (the notebook's `df.sample(5)`). -/
def Table.sample (t : Table) (n : Nat) (st : Nat) : Option Table :=
  if n ≤ t.rows.length then some ⟨t.cols, pickRows n st t.rows⟩ else none

/-- Modelled from the spec: a derived column appended from existing columns. -/
def Table.deriveCol (t : Table) (name : String) (f : List Value → Value) : Table :=
  ⟨t.cols ++ [name], t.rows.map (fun r => r ++ [f r])⟩

/-- The position of a column name, if present. -/
def colIdx? : List String → String → Option Nat
  | [], _ => none
  | c :: cs, name => if c = name then some 0 else (colIdx? cs name).map (fun i => i + 1)

/-- The position of a column name, defaulting to zero. -/
def colIdxD : List String → String → Nat
  | [], _ => 0
  | c :: cs, name => if c = name then 0 else colIdxD cs name + 1

/-- The notebook's in-place column assignment `df["height_m"] = ...`:
overwrites the column in position when the name exists, otherwise appends
it at the end. -/
def setItemCol (t : Table) (name : String) (vs : List Value) : Table :=
  match colIdx? t.cols name with
  | some i => ⟨t.cols, List.zipWith (fun r v => r.set i v) t.rows vs⟩
  | none => ⟨t.cols ++ [name], List.zipWith (fun r v => r ++ [v]) t.rows vs⟩

/-- The notebook's functional `df.assign(height_m=...)`: a copy of the Table
with the named column overwritten in position when present, otherwise
appended at the end. -/
def assignCol (t : Table) (name : String) (vs : List Value) : Table :=
  if t.cols.contains name then
    ⟨t.cols, List.zipWith (fun r v => r.set (colIdxD t.cols name) v) t.rows vs⟩
  else ⟨t.cols ++ [name], List.zipWith (fun r v => r ++ [v]) t.rows vs⟩

/-- Division of a numeric cell by one hundred (centimetres to metres). -/
def divBy100 : Value → Value
  | Value.num q => Value.num (q / 100)
  | _ => Value.null

/-- The notebook's `df["height_m"] = df["height"] / 100`. -/
def assignStmtHeightM (t : Table) : Table :=
  setItemCol t "height_m" ((colValues t "height").map divBy100)

/-- The notebook's `df = df.assign(height_m=df["height"] / 100)`. -/
def assignMethodHeightM (t : Table) : Table :=
  assignCol t "height_m" ((colValues t "height").map divBy100)

/-- Modelled from the spec: a Query is an immutable specification of one
transformation — filter predicate, selected columns, sort keys, group keys
with aggregation, sample size, or derived column. -/
inductive Query where
  | filterQ (p : List Value → Bool)
  | selectQ (names : List String)
  | sortQ (keys : List (String × Bool))
  | groupMeanQ (key val : String)
  | transformQ (key val newName : String)
  | sampleQ (n seed : Nat)
  | deriveQ (name : String) (f : List Value → Value)

/-- Modelled from the spec: the Transformer — given a Table and a Query it
returns a new Table, or fails on an invalid Query. -/
def applyQuery (q : Query) (t : Table) : Option Table :=
  match q with
  | Query.filterQ p => some (t.filterRows p)
  | Query.selectQ ns => t.selectCols ns
  | Query.sortQ keys => some (t.sortValues keys)
  | Query.groupMeanQ k v => some (t.groupMean k v)
  | Query.transformQ k v nn => some (t.transformDemean k v nn)
  | Query.sampleQ n seed => t.sample n (seedRng seed)
  | Query.deriveQ name f => some (t.deriveCol name f)

/-- A notebook environment: named dataframe variables bound to Tables. -/
def lookupEnv : List (String × Table) → String → Option Table
  | [], _ => none
  | (y, t) :: e, x => if y = x then some t else lookupEnv e x

/-- One notebook step `dst = src.<operation>(...)`: applies a Transformer
operation to the Table bound to `src` and binds the resulting new Table to
`dst`, leaving every existing binding in place. -/
def runStep (e : List (String × Table)) (dst src : String) (q : Query) :
    List (String × Table) :=
  match lookupEnv e src with
  | none => e
  | some t =>
    match applyQuery q t with
    | none => e
    | some t' => (dst, t') :: e

/-! ### HTML documents (Parser component, HTML branch)

Modelled from the spec: the HTML parse builds a traversable node tree whose
nodes expose their tag and concatenated descendant text; the table scan
collects `<table>` elements in document order. -/

mutual
/-- A node of an HTML document tree: an element with a tag, attributes and
children, or a text node. -/
inductive HNode where
  | elem (tag : String) (attrs : List (String × String)) (children : HForest)
  | textNode (s : String)
/-- A sequence of sibling HTML nodes. -/
inductive HForest where
  | fnil
  | fcons (n : HNode) (f : HForest)
end

mutual
/-- The concatenated descendant text of a node (the spec's `text`). -/
def nodeText : HNode → List Char
  | HNode.elem _ _ ch => forestText ch
  | HNode.textNode s => s.toList
/-- The concatenated text of a sequence of nodes. -/
def forestText : HForest → List Char
  | HForest.fnil => []
  | HForest.fcons n f => nodeText n ++ forestText f
end

mutual
/-- All elements with the given tag, in document (preorder) order: the
spec's `find_all(tag)`. -/
def findTagN (tg : String) : HNode → List HNode
  | HNode.textNode _ => []
  | HNode.elem tag attrs ch =>
    (if tag = tg then [HNode.elem tag attrs ch] else []) ++ findTagF tg ch
/-- All elements with the given tag inside a sequence of nodes. -/
def findTagF (tg : String) : HForest → List HNode
  | HForest.fnil => []
  | HForest.fcons n f => findTagN tg n ++ findTagF tg f
end

/-- Whether the second list is a prefix of the first. -/
def startsWithSub : List Char → List Char → Bool
  | _, [] => true
  | [], _ :: _ => false
  | c :: cs, d :: ds => c = d && startsWithSub cs ds

/-- Whether the second list occurs contiguously inside the first. -/
def containsSub : List Char → List Char → Bool
  | [], sub => sub.isEmpty
  | c :: cs, sub => startsWithSub (c :: cs) sub || containsSub cs sub

/-- The header or data cells of one table row element. -/
def rowCells (tr : HNode) : List HNode :=
  findTagN "th" tr ++ findTagN "td" tr

/-- The Table read from one `<table>` element: the first row's cell texts
are column names, the remaining rows data. -/
def tableOfNode (n : HNode) : Table :=
  match findTagN "tr" n with
  | [] => ⟨[], []⟩
  | hdr :: rest =>
    ⟨(rowCells hdr).map (fun c => String.mk (nodeText c)),
     rest.map (fun tr => (rowCells tr).map (fun c => Value.str (String.mk (nodeText c))))⟩

/-- Modelled from the spec: the error kinds surfaced by pipeline stages. -/
inductive PipelineError where
  | networkError
  | notFoundError
  | malformedDataError
  | unsupportedFormatError
  | typeCoercionError
  | unknownColumnError
  | invalidArgumentError
  | sinkError
deriving DecidableEq, Repr

/-- Modelled from the spec: the HTML-tables parse (the notebooks'
`pd.read_html(url, match=...)`): one Table per `<table>` element found, in
document order; an optional substring filter restricts results to tables
whose rendered text contains the substring; fails with NotFoundError when
the filter matches none. -/
def readHtmlTables (doc : HNode) (filt : Option String) :
    Except PipelineError (List Table) :=
  let tabs := findTagN "table" doc
  let kept :=
    match filt with
    | none => tabs
    | some s => tabs.filter (fun n => containsSub (nodeText n) s.toList)
  if kept.isEmpty then Except.error PipelineError.notFoundError
  else Except.ok (kept.map tableOfNode)

/-- A list of sibling nodes as an `HForest`. -/
def forestOf : List HNode → HForest
  | [] => HForest.fnil
  | n :: ns => HForest.fcons n (forestOf ns)

/-- A `<td>` cell holding one piece of text. -/
def tdOf (s : String) : HNode :=
  HNode.elem "td" [] (forestOf [HNode.textNode s])

/-- A `<tr>` row of cells. -/
def trOf (cells : List HNode) : HNode :=
  HNode.elem "tr" [] (forestOf cells)

/-- First example table: world-cup years, no mention of Sweden. -/
def exTable1 : HNode :=
  HNode.elem "table" [] (forestOf [trOf [tdOf "Year"], trOf [tdOf "1994"], trOf [tdOf "2002"]])

/-- Second example table: past winners, the only one mentioning Sweden. -/
def exTable2 : HNode :=
  HNode.elem "table" [] (forestOf [trOf [tdOf "Fourth place"], trOf [tdOf "Sweden"], trOf [tdOf "Brazil"]])

/-- Third example table: host countries, no mention of Sweden. -/
def exTable3 : HNode :=
  HNode.elem "table" [] (forestOf [trOf [tdOf "Host"], trOf [tdOf "Qatar"]])

/-- An HTML document holding three `<table>` elements of which exactly one
contains the text "Sweden", mirroring the FIFA World Cup page scenario. -/
def exDoc : HNode :=
  HNode.elem "html" []
    (forestOf [HNode.elem "h1" [] (forestOf [HNode.textNode "FIFA World Cup"]),
      exTable1, HNode.elem "p" [] (forestOf [HNode.textNode "Results"]),
      exTable2, exTable3])

/-- The Star Wars style example table of the spec's Group+Aggregate
scenario: `species = human/human/droid`, `mass = [80, None, 50]`. -/
def starTable : Table :=
  ⟨["species", "mass"],
   [[Value.str "human", Value.num 80],
    [Value.str "human", Value.null],
    [Value.str "droid", Value.num 50]]⟩

/-! ### Round-trip lemmas for the Parser and Exporter -/

/-- Whether the input begins with a field or record separator or is over:
the admissible continuations after one field. -/
def headSep : List Char → Bool
  | [] => true
  | c :: _ => c = ',' || c = '\n'

/-- Whether the input begins with a record separator or is over: the
admissible continuations after one record. -/
def headNl : List Char → Bool
  | [] => true
  | c :: _ => c = '\n'

theorem headSep_of_headNl (l : List Char) (h : headNl l = true) : headSep l = true := by
  cases l with
  | nil => rfl
  | cons c cs =>
    have : c = '\n' := by simpa [headNl] using h
    simp [headSep, this]

theorem takeCell_append (f rest : List Char)
    (hf : ∀ c ∈ f, ¬(c = ',' ∨ c = '\n')) (hrest : headSep rest = true) :
    takeCell (f ++ rest) = (f, rest) := by
  induction f with
  | nil =>
    simp only [List.nil_append]
    cases rest with
    | nil => rfl
    | cons c cs =>
      have : c = ',' ∨ c = '\n' := by simpa [headSep] using hrest
      simp [takeCell, this]
  | cons c f ih =>
    have hc : ¬(c = ',' ∨ c = '\n') := hf c (List.mem_cons_self c f)
    have ihh := ih (fun d hd => hf d (List.mem_cons_of_mem c hd))
    simp [takeCell, hc, ihh]

theorem escQuotes_cons (c : Char) (f : List Char) :
    escQuotes (c :: f) = (if c = '"' then ['"', '"'] else [c]) ++ escQuotes f := by
  simp [escQuotes]

theorem takeQuoted_esc (f rest : List Char) (hrest : headSep rest = true) :
    takeQuoted (escQuotes f ++ '"' :: rest) = some (f, rest) := by
  induction f with
  | nil =>
    show takeQuoted ('"' :: rest) = some ([], rest)
    cases rest with
    | nil => rfl
    | cons c cs =>
      have hc : c = ',' ∨ c = '\n' := by simpa [headSep] using hrest
      have hcq : ¬(c = '"') := by rcases hc with h | h <;> simp [h]
      simp [takeQuoted, hcq]
  | cons c f ih =>
    by_cases hc : c = '"'
    · subst hc
      rw [escQuotes_cons]
      simp [takeQuoted, ih]
    · rw [escQuotes_cons]
      simp only [if_neg hc, List.cons_append, List.nil_append]
      rw [takeQuoted.eq_def]
      simp [hc, ih]

theorem not_special_of_needsQuote (f : List Char) (h : needsQuote f = false) :
    ∀ c ∈ f, ¬(c = ',' ∨ c = '\n' ∨ c = '"') := by
  intro c hc hor
  have : f.any (fun c => c = ',' || c = '\n' || c = '"') = true := by
    refine List.any_eq_true.mpr ⟨c, hc, ?_⟩
    rcases hor with h1 | h1 | h1 <;> simp [h1]
  rw [needsQuote] at h
  rw [this] at h
  exact Bool.noConfusion h

theorem parseCell_render (f rest : List Char) (hrest : headSep rest = true) :
    parseCell (renderField f ++ rest) = some (f, rest) := by
  by_cases hq : needsQuote f = true
  · rw [renderField, if_pos hq]
    have harr : ('"' :: (escQuotes f ++ ['"'])) ++ rest = '"' :: (escQuotes f ++ '"' :: rest) := by
      simp
    rw [harr]
    simp [parseCell, takeQuoted_esc f rest hrest]
  · have hq' : needsQuote f = false := by simpa using hq
    rw [renderField, if_neg (by simp [hq'])]
    have hspec := not_special_of_needsQuote f hq'
    cases f with
    | nil =>
      simp only [List.nil_append]
      cases rest with
      | nil => rfl
      | cons c cs =>
        have hc : c = ',' ∨ c = '\n' := by simpa [headSep] using hrest
        have hcq : ¬(c = '"') := by rcases hc with h | h <;> simp [h]
        simp [parseCell, hcq, takeCell, hc]
    | cons c f =>
      have hcq : ¬(c = '"') := fun h =>
        hspec c (List.mem_cons_self c f) (Or.inr (Or.inr h))
      have htc := takeCell_append (c :: f) rest
        (fun d hd hor => hspec d hd (hor.elim Or.inl (fun h => Or.inr (Or.inl h)))) hrest
      simp only [List.cons_append] at htc ⊢
      simp [parseCell, hcq, htc]

theorem parseCellsAux_render (cells : List (List Char)) (rest : List Char) (fuel : Nat)
    (hne : cells ≠ []) (hrest : headNl rest = true) (hfuel : cells.length ≤ fuel) :
    parseCellsAux fuel (renderLine cells ++ rest) = some (cells, rest) := by
  induction cells generalizing fuel with
  | nil => exact absurd rfl hne
  | cons c cs ih =>
    cases fuel with
    | zero => simp at hfuel
    | succ fuel =>
      have hsep := headSep_of_headNl rest hrest
      cases cs with
      | nil =>
        have hline : renderLine [c] = renderField c := by
          simp [renderLine, joinWith]
        rw [hline, parseCellsAux, parseCell_render c rest hsep]
        cases rest with
        | nil => rfl
        | cons r rs =>
          have hrr : r = '\n' := by simpa [headNl] using hrest
          subst hrr
          simp
      | cons c2 cs2 =>
        have hline : renderLine (c :: c2 :: cs2) ++ rest
            = renderField c ++ (',' :: (renderLine (c2 :: cs2) ++ rest)) := by
          simp [renderLine, joinWith]
        have hsep2 : headSep (',' :: (renderLine (c2 :: cs2) ++ rest)) = true := by
          simp [headSep]
        rw [hline, parseCellsAux, parseCell_render c _ hsep2]
        have hfuel' : (c2 :: cs2).length ≤ fuel := by
          simp only [List.length_cons] at hfuel ⊢
          omega
        have ihh := ih fuel (by simp) hfuel'
        simp [ihh]

theorem renderLine_length (cells : List (List Char)) (h : cells ≠ []) :
    cells.length ≤ (renderLine cells).length + 1 := by
  induction cells with
  | nil => exact absurd rfl h
  | cons c cs ih =>
    cases cs with
    | nil => simp [renderLine, joinWith]
    | cons c2 cs2 =>
      have ihh := ih (by simp)
      have hline : renderLine (c :: c2 :: cs2)
          = renderField c ++ [','] ++ renderLine (c2 :: cs2) := by
        simp [renderLine, joinWith]
      rw [hline]
      simp only [List.length_append, List.length_cons]
      simp only [List.length_cons] at ihh
      omega

theorem flatMapLine_length (records : List (List (List Char))) :
    records.length ≤ (records.flatMap (fun cs => renderLine cs ++ ['\n'])).length := by
  induction records with
  | nil => simp
  | cons r rs ih =>
    simp only [List.flatMap_cons, List.length_append, List.length_cons]
    omega

theorem parseRowsAux_render (records : List (List (List Char))) (fuel : Nat)
    (hne : ∀ r ∈ records, r ≠ []) (hfuel : records.length < fuel) :
    parseRowsAux fuel (records.flatMap (fun cs => renderLine cs ++ ['\n'])) = some records := by
  induction records generalizing fuel with
  | nil =>
    cases fuel with
    | zero => omega
    | succ fuel => simp [parseRowsAux]
  | cons r rs ih =>
    cases fuel with
    | zero => omega
    | succ fuel =>
      have hr : r ≠ [] := hne r (List.mem_cons_self r rs)
      have hl : (r :: rs).flatMap (fun cs => renderLine cs ++ ['\n'])
          = renderLine r ++ ('\n' :: rs.flatMap (fun cs => renderLine cs ++ ['\n'])) := by
        simp [List.flatMap_cons]
      rw [hl, parseRowsAux]
      have hnil : renderLine r ++ ('\n' :: rs.flatMap (fun cs => renderLine cs ++ ['\n'])) ≠ [] := by
        simp
      rw [if_neg hnil]
      have hfc : r.length ≤
          (renderLine r ++ ('\n' :: rs.flatMap (fun cs => renderLine cs ++ ['\n']))).length + 1 := by
        have h1 := renderLine_length r hr
        simp only [List.length_append, List.length_cons]
        omega
      rw [parseCellsAux_render r _ _ hr (by simp [headNl]) hfc]
      have hfuel' : rs.length < fuel := by
        simp only [List.length_cons] at hfuel
        omega
      have ihh := ih fuel (fun x hx => hne x (List.mem_cons_of_mem r hx)) hfuel'
      simp [ihh]

theorem csvRecords_render (t : Table) (h : ∀ r ∈ tableRecords t, r ≠ []) :
    csvRecords (csvExport t) = some (tableRecords t) := by
  unfold csvRecords csvExport
  refine parseRowsAux_render _ _ h ?_
  have := flatMapLine_length (tableRecords t)
  omega

theorem mk_toList (s : String) : String.mk s.toList = s := rfl

/-- Exporting any wellformed Table to delimited text and parsing that text
back yields a Table with the same column names and one row per input row,
the cells re-coerced from their rendered text. -/
theorem csv_roundtrip_core (t : Table) (hc : t.cols ≠ [])
    (hr : ∀ r ∈ t.rows, r.length = t.cols.length) :
    csvParse (csvExport t)
      = some ⟨t.cols, t.rows.map (fun r => r.map (fun v => coerceCell (renderValue v)))⟩ := by
  have hclen : 0 < t.cols.length := List.length_pos.mpr hc
  have hrecs : ∀ r ∈ tableRecords t, r ≠ [] := by
    intro r hrmem
    rw [tableRecords, List.mem_cons] at hrmem
    rcases hrmem with hhd | hmem
    · subst hhd
      simp only [ne_eq, List.map_eq_nil_iff]
      exact hc
    · obtain ⟨row, hrow, hexp⟩ := List.mem_map.mp hmem
      subst hexp
      have : row.length = t.cols.length := hr row hrow
      intro hnil
      rw [List.map_eq_nil_iff] at hnil
      subst hnil
      simp at this
      omega
  have hcr := csvRecords_render t hrecs
  obtain ⟨c0, ctl, hcols⟩ : ∃ c0 ctl, t.cols = c0 :: ctl := by
    cases hcsq : t.cols with
    | nil => exact absurd hcsq hc
    | cons a b => exact ⟨a, b, rfl⟩
  have hrecsform : tableRecords t
      = (c0.toList :: ctl.map String.toList) :: t.rows.map (fun r => r.map renderValue) := by
    rw [tableRecords, hcols]
    simp
  rw [hrecsform] at hcr
  have hall : (t.rows.map (fun r => r.map renderValue)).all
      (fun r => r.length == (c0.toList :: ctl.map String.toList).length) = true := by
    rw [List.all_eq_true]
    intro rr hrr
    obtain ⟨row, hrow, hexp⟩ := List.mem_map.mp hrr
    subst hexp
    have h1 : row.length = t.cols.length := hr row hrow
    have h2 : t.cols.length = (c0.toList :: ctl.map String.toList).length := by
      rw [hcols]; simp
    simp [h1, h2]
  rw [csvParse, hcr]
  simp only [hall, if_pos]
  congr 1
  refine congrArg₂ Table.mk ?_ ?_
  · rw [hcols]
    simp [List.map_map, Function.comp_def, mk_toList]
  · simp [List.map_map, Function.comp_def]

/-- A Table produced by the CSV Parser is column-nonempty and row-uniform. -/
theorem csvParse_shape (l : List Char) (t : Table) (h : csvParse l = some t) :
    t.cols ≠ [] ∧ ∀ r ∈ t.rows, r.length = t.cols.length := by
  rw [csvParse] at h
  split at h
  · rename_i h0 hs rows
    split at h
    · rename_i hall
      rw [Option.some.injEq] at h
      subst h
      constructor
      · simp
      · intro r hrmem
        obtain ⟨r0, hr0, hexp⟩ := List.mem_map.mp hrmem
        subst hexp
        have := (List.all_eq_true.mp hall) r0 hr0
        simp only [beq_iff_eq] at this
        simp [this]
    · exact absurd h (by simp)
  · exact absurd h (by simp)

/-- A Table produced from parsed JSON objects is column-nonempty and
row-uniform. -/
theorem jsonTableOf_shape (objs : List (List (String × Value))) (t : Table)
    (h : jsonTableOf objs = some t) :
    t.cols ≠ [] ∧ ∀ r ∈ t.rows, r.length = t.cols.length := by
  match objs, h with
  | [], h => exact absurd h (by simp [jsonTableOf])
  | [] :: obs, h => exact absurd h (by simp [jsonTableOf])
  | (m :: ms) :: obs, h => ?_
  rw [jsonTableOf] at h
  split at h
  · rename_i hall
    rw [Option.some.injEq] at h
    subst h
    constructor
    · simp
    · intro r hrmem
      obtain ⟨o, ho, hexp⟩ := List.mem_map.mp hrmem
      subst hexp
      have := (List.all_eq_true.mp hall) o ho
      simp only [beq_iff_eq] at this
      have hlen : (o.map Prod.fst).length = ((m :: ms).map Prod.fst).length := by
        rw [this]
      simp only [List.length_map] at hlen
      simp [hlen]
  · exact absurd h (by simp)

/-- A Table produced by the JSON Parser is column-nonempty and row-uniform. -/
theorem jsonParse_shape (l : List Char) (t : Table) (h : jsonParse l = some t) :
    t.cols ≠ [] ∧ ∀ r ∈ t.rows, r.length = t.cols.length := by
  cases l with
  | nil => exact absurd h (by simp [jsonParse])
  | cons c rest =>
    rw [jsonParse] at h
    split at h
    · split at h
      · exact jsonTableOf_shape _ _ h
      · exact absurd h (by simp)
    · exact absurd h (by simp)

/-! ### Stable-sort lemmas for the Transformer's Sort -/

theorem mem_insOrdered {α : Type} (lt : α → α → Bool) (x a : α) (l : List α) :
    a ∈ insOrdered lt x l ↔ a = x ∨ a ∈ l := by
  induction l with
  | nil => simp [insOrdered]
  | cons b bs ih =>
    rw [insOrdered]
    by_cases h : lt b x = true
    · rw [if_pos h]
      simp only [List.mem_cons, ih]
      tauto
    · rw [if_neg h]
      simp only [List.mem_cons]

theorem perm_insOrdered {α : Type} (lt : α → α → Bool) (x : α) (l : List α) :
    (insOrdered lt x l).Perm (x :: l) := by
  induction l with
  | nil => exact List.Perm.refl _
  | cons b bs ih =>
    rw [insOrdered]
    by_cases h : lt b x = true
    · rw [if_pos h]
      exact (ih.cons b).trans (List.Perm.swap x b bs)
    · rw [if_neg h]

theorem perm_stableSort {α : Type} (lt : α → α → Bool) (l : List α) :
    (stableSort lt l).Perm l := by
  induction l with
  | nil => exact List.Perm.refl _
  | cons a as ih =>
    rw [stableSort]
    exact (perm_insOrdered lt a (stableSort lt as)).trans (ih.cons a)

theorem filter_insOrdered_pos {α : Type} (lt : α → α → Bool) (p : α → Bool) (x : α)
    (l : List α) (hx : p x = true) (hl : ∀ y ∈ l, p y = true → lt y x = false) :
    (insOrdered lt x l).filter p = x :: l.filter p := by
  induction l with
  | nil => simp [insOrdered, hx]
  | cons b bs ih =>
    rw [insOrdered]
    by_cases hb : lt b x = true
    · rw [if_pos hb]
      have hpb : p b = false := by
        cases hpbv : p b with
        | true => exact absurd hb (by simp [hl b (List.mem_cons_self b bs) hpbv])
        | false => rfl
      rw [List.filter_cons, List.filter_cons]
      simp only [hpb, Bool.false_eq_true, if_neg, ite_false]
      exact ih (fun y hy hpy => hl y (List.mem_cons_of_mem b hy) hpy)
    · rw [if_neg hb]
      rw [List.filter_cons]
      simp [hx]

theorem filter_insOrdered_neg {α : Type} (lt : α → α → Bool) (p : α → Bool) (x : α)
    (l : List α) (hx : p x = false) :
    (insOrdered lt x l).filter p = l.filter p := by
  induction l with
  | nil => simp [insOrdered, hx]
  | cons b bs ih =>
    rw [insOrdered]
    by_cases hb : lt b x = true
    · rw [if_pos hb]
      rw [List.filter_cons, List.filter_cons]
      cases hpb : p b <;> simp [hpb, ih]
    · rw [if_neg hb]
      rw [List.filter_cons]
      simp [hx]

theorem filter_stableSort {α : Type} (lt : α → α → Bool) (p : α → Bool) (l : List α)
    (hp : ∀ a ∈ l, ∀ b ∈ l, p a = true → p b = true → lt a b = false) :
    (stableSort lt l).filter p = l.filter p := by
  induction l with
  | nil => rfl
  | cons a as ih =>
    rw [stableSort]
    have ihh := ih (fun x hx y hy hpx hpy =>
      hp x (List.mem_cons_of_mem a hx) y (List.mem_cons_of_mem a hy) hpx hpy)
    cases ha : p a with
    | true =>
      rw [filter_insOrdered_pos lt p a _ ha ?_]
      · rw [List.filter_cons]
        simp only [ha, if_pos, ite_true, ihh]
      · intro y hy hpy
        have hy' : y ∈ as := ((perm_stableSort lt as).mem_iff).mp hy
        exact hp y (List.mem_cons_of_mem a hy') a (List.mem_cons_self a as) hpy ha
    | false =>
      rw [filter_insOrdered_neg lt p a _ ha]
      rw [List.filter_cons]
      simp only [ha, Bool.false_eq_true, ite_false, ihh]

theorem charsLt_irrefl (l : List Char) : charsLt l l = false := by
  induction l with
  | nil => rfl
  | cons c cs ih => simp [charsLt, ih]

theorem ltV_irrefl (v : Value) : ltV v v = false := by
  cases v with
  | str s => simp [ltV, charsLt_irrefl]
  | num q => simp [ltV]
  | date d => simp [ltV]
  | null => rfl

theorem lexLt_eq_false_of_keyTuple_eq (keys : List (String × Bool)) (cols : List String)
    (r r' : List Value) (h : keyTuple keys cols r = keyTuple keys cols r') :
    lexLt keys cols r r' = false := by
  induction keys with
  | nil => rfl
  | cons k ks ih =>
    obtain ⟨name, asc⟩ := k
    rw [keyTuple, keyTuple, List.map_cons, List.map_cons] at h
    injection h with h1 h2
    rw [lexLt]
    simp only at h1
    rw [h1]
    simp [ite_self, ltV_irrefl, ih h2]

theorem charsLt_asymm (l l' : List Char) (h : charsLt l l' = true) : charsLt l' l = false := by
  induction l generalizing l' with
  | nil =>
    cases l' with
    | nil => exact absurd h (by simp [charsLt])
    | cons d ds => rfl
  | cons c cs ih =>
    cases l' with
    | nil => exact absurd h (by simp [charsLt])
    | cons d ds =>
      rw [charsLt] at h ⊢
      by_cases hcd : c < d
      · have hdc : ¬(d < c) := fun hdc => absurd (hcd.trans hdc) (lt_irrefl c)
        simp [hcd, hdc]
      · by_cases hdc : d < c
        · exact absurd h (by simp [hcd, hdc])
        · have := ih ds (by simpa [hcd, hdc] using h)
          simp [hcd, hdc, this]

theorem ltV_asymm (v w : Value) (h : ltV v w = true) : ltV w v = false := by
  cases v with
  | str s =>
    cases w with
    | str s' => exact charsLt_asymm _ _ (by simpa [ltV] using h)
    | num q => rfl
    | date d => rfl
    | null => rfl
  | num q =>
    cases w with
    | str s => rfl
    | num q' =>
      have hq : q < q' := by simpa [ltV] using h
      simp [ltV, le_of_lt hq, not_lt_of_le (le_of_lt hq)]
    | date d => rfl
    | null => rfl
  | date d =>
    cases w with
    | str s => rfl
    | num q => rfl
    | date d' =>
      have hd : d < d' := by simpa [ltV] using h
      simp [ltV]
      omega
    | null => rfl
  | null => exact absurd h (by simp [ltV])

theorem lexLt_asymm (keys : List (String × Bool)) (cols : List String)
    (r r' : List Value) (h : lexLt keys cols r r' = true) :
    lexLt keys cols r' r = false := by
  induction keys with
  | nil => rfl
  | cons k ks ih =>
    obtain ⟨name, asc⟩ := k
    rw [lexLt] at h ⊢
    set a := if asc then getCell cols r name else getCell cols r' name with ha
    set b := if asc then getCell cols r' name else getCell cols r name with hb
    have hswap1 : (if asc then getCell cols r' name else getCell cols r name) = b := rfl
    have hswap2 : (if asc then getCell cols r name else getCell cols r' name) = a := rfl
    by_cases hab : ltV a b = true
    · have hba : ltV b a = false := ltV_asymm a b hab
      simp [hba, hab]
    · by_cases hba : ltV b a = true
      · exact absurd h (by simp [hab, hba])
      · have hrec := ih (by simpa [hab, hba] using h)
        simp [hab, hba, hrec]

theorem mem_cons_lift {α : Type} {x b a : α} {bs : List α} (h : a ∈ x :: bs) :
    a ∈ x :: b :: bs := by
  rcases List.mem_cons.mp h with h | h
  · simp [h]
  · exact List.mem_cons_of_mem x (List.mem_cons_of_mem b h)

theorem insOrdered_pairwise {α : Type} (lt : α → α → Bool) (x : α) (l : List α)
    (hasym : ∀ a b, lt a b = true → lt b a = false)
    (htrans : ∀ a b c, a ∈ x :: l → b ∈ x :: l → c ∈ x :: l →
      lt b a = false → lt c b = false → lt c a = false)
    (hl : l.Pairwise (fun a b => lt b a = false)) :
    (insOrdered lt x l).Pairwise (fun a b => lt b a = false) := by
  induction l with
  | nil => simp [insOrdered]
  | cons b bs ih =>
    rw [insOrdered]
    rw [List.pairwise_cons] at hl
    by_cases hb : lt b x = true
    · rw [if_pos hb]
      rw [List.pairwise_cons]
      constructor
      · intro y hy
        rw [mem_insOrdered] at hy
        rcases hy with hy | hy
        · subst hy
          exact hasym b y hb
        · exact hl.1 y hy
      · exact ih (fun a b c hma hmb hmc =>
          htrans a b c (mem_cons_lift hma) (mem_cons_lift hmb) (mem_cons_lift hmc))
          hl.2
    · rw [if_neg hb]
      have hbx : lt b x = false := by simpa using hb
      rw [List.pairwise_cons]
      constructor
      · intro y hy
        rcases List.mem_cons.mp hy with hy | hy
        · subst hy
          exact hbx
        · exact htrans x b y (List.mem_cons_self x _) (by simp) (by simp [hy])
            hbx (hl.1 y hy)
      · rw [List.pairwise_cons]
        exact ⟨hl.1, hl.2⟩

theorem stableSort_pairwise {α : Type} (lt : α → α → Bool) (l : List α)
    (hasym : ∀ a b, lt a b = true → lt b a = false)
    (htrans : ∀ a ∈ l, ∀ b ∈ l, ∀ c ∈ l,
      lt b a = false → lt c b = false → lt c a = false) :
    (stableSort lt l).Pairwise (fun a b => lt b a = false) := by
  induction l with
  | nil => simp [stableSort]
  | cons a as ih =>
    rw [stableSort]
    refine insOrdered_pairwise lt a (stableSort lt as) hasym ?_
      (ih (fun x hx y hy z hz => htrans x (List.mem_cons_of_mem a hx)
        y (List.mem_cons_of_mem a hy) z (List.mem_cons_of_mem a hz)))
    intro x y z hx hy hz h1 h2
    have hmem : ∀ w, w ∈ a :: stableSort lt as → w ∈ a :: as := by
      intro w hw
      rcases List.mem_cons.mp hw with hw | hw
      · simp [hw]
      · exact List.mem_cons_of_mem a ((perm_stableSort lt as).mem_iff.mp hw)
    exact htrans x (hmem x hx) y (hmem y hy) z (hmem z hz) h1 h2

/-! ### Helper lemmas for aggregation and column assignment -/

theorem filterMap_toNum_filter_null (vs : List Value) :
    (vs.filter (fun v => !(v == Value.null))).filterMap toNum = vs.filterMap toNum := by
  induction vs with
  | nil => rfl
  | cons v vs ih =>
    cases v with
    | str s => simpa [List.filter_cons, List.filterMap_cons, toNum] using ih
    | num q => simpa [List.filter_cons, List.filterMap_cons, toNum] using ih
    | date d => simpa [List.filter_cons, List.filterMap_cons, toNum] using ih
    | null => simpa [List.filter_cons, List.filterMap_cons, toNum] using ih

theorem colIdx?_of_contains (l : List String) (a : String) (h : l.contains a = true) :
    colIdx? l a = some (colIdxD l a) := by
  induction l with
  | nil => exact absurd h (by simp)
  | cons c cs ih =>
    by_cases hc : c = a
    · simp [colIdx?, colIdxD, hc]
    · have hc' : (a == c) = false := by
        simp only [beq_eq_false_iff_ne, ne_eq]
        exact fun hac => hc hac.symm
      have hcs : cs.contains a = true := by
        rw [List.contains_cons, hc'] at h
        simpa using h
      simp [colIdx?, colIdxD, hc, ih hcs]

theorem colIdx?_of_not_contains (l : List String) (a : String) (h : l.contains a = false) :
    colIdx? l a = none := by
  induction l with
  | nil => rfl
  | cons c cs ih =>
    rw [List.contains_cons] at h
    have hc : ¬(c = a) := by
      intro hca
      simp [hca] at h
    have hcs : cs.contains a = false := by
      rcases Bool.or_eq_false_iff.mp h with ⟨_, h2⟩
      exact h2
    simp [colIdx?, hc, ih hcs]

/-! ## Claims -/

/-- C1: For every valid, already-typed CSV or JSON input (a FetchResult the
Parser accepts into a Table), parsing it into a Table and then exporting the
Table round-trips the column names and the row count exactly: the exported
table, read back, has the same column names and the same number of rows as
the source data, with no data loss. -/
theorem parser_exporter_roundtrip (f : FetchResult) (t : Table)
    (h : parseFetch f = some t) :
    ∃ t', csvParse (csvExport t) = some t'
      ∧ t'.cols = t.cols ∧ t'.rows.length = t.rows.length := by
  have hshape : t.cols ≠ [] ∧ ∀ r ∈ t.rows, r.length = t.cols.length := by
    rw [parseFetch] at h
    cases hk : f.kind with
    | csv =>
      rw [hk] at h
      exact csvParse_shape f.content t h
    | json =>
      rw [hk] at h
      exact jsonParse_shape f.content t h
  exact ⟨_, csv_roundtrip_core t hshape.1 hshape.2, rfl, by simp⟩

/-- Witness for C1 at the spec's CSV scenario input. -/
theorem parser_exporter_roundtrip_witness :
    ∃ t', csvParse (csvExport (Table.mk ["a", "b"]
        [[Value.num 1, Value.num 2], [Value.num 3, Value.num 4]])) = some t'
      ∧ t'.cols = ["a", "b"] ∧ t'.rows.length = 2 :=
  parser_exporter_roundtrip
    ⟨"data/starwars.csv", ContentKind.csv, "a,b\n1,2\n3,4\n".toList⟩
    ⟨["a", "b"], [[Value.num 1, Value.num 2], [Value.num 3, Value.num 4]]⟩
    (by decide)

/-- C2: each Transformer operation, applied in a notebook step to the Table
bound to a source variable, returns a new Table bound to the destination
variable and never mutates its input: afterwards the source variable still
holds exactly the Table (every column and row) it held before. -/
theorem transformer_never_mutates (e : List (String × Table)) (dst src : String)
    (q : Query) (t t' : Table) (hsrc : lookupEnv e src = some t) (hne : dst ≠ src)
    (happ : applyQuery q t = some t') :
    lookupEnv (runStep e dst src q) src = some t
      ∧ lookupEnv (runStep e dst src q) dst = some t' := by
  simp only [runStep, hsrc, happ]
  constructor
  · rw [lookupEnv, if_neg hne]
    exact hsrc
  · rw [lookupEnv, if_pos rfl]

/-- Witness for C2: a sort step bound to a fresh variable. -/
theorem transformer_never_mutates_witness :
    lookupEnv (runStep [("df", starTable)] "df2" "df" (Query.sortQ [("mass", true)])) "df"
        = some starTable
      ∧ lookupEnv (runStep [("df", starTable)] "df2" "df" (Query.sortQ [("mass", true)])) "df2"
        = some (starTable.sortValues [("mass", true)]) :=
  transformer_never_mutates [("df", starTable)] "df2" "df" (Query.sortQ [("mass", true)])
    starTable (starTable.sortValues [("mass", true)]) rfl (by decide) rfl

/-- C3: Sort is a stable sort for every Table and every sort specification:
the output rows are a permutation of the input rows, and any two rows with
equal sort-key values appear in the output in the same relative order they
had in the input (the filter of the output rows by any key-tuple value
equals the filter of the input rows) — both unconditionally, null-bearing
key columns included.  Additionally, Sort orders the rows by the given key
columns — pairwise, no later row strictly precedes an earlier one under the
lexicographic key comparison — whenever that comparison is negatively
transitive on the table's rows, which holds for homogeneously typed key
columns. -/
theorem sort_orders_and_is_stable (t : Table) (keys : List (String × Bool))
    (kt : List Value) :
    (t.sortValues keys).rows.Perm t.rows
      ∧ (t.sortValues keys).rows.filter (fun r => keyTuple keys t.cols r == kt)
          = t.rows.filter (fun r => keyTuple keys t.cols r == kt)
      ∧ ((∀ a ∈ t.rows, ∀ b ∈ t.rows, ∀ c ∈ t.rows,
            lexLt keys t.cols b a = false → lexLt keys t.cols c b = false →
              lexLt keys t.cols c a = false) →
          (t.sortValues keys).rows.Pairwise (fun a b => lexLt keys t.cols b a = false)) := by
  refine ⟨perm_stableSort _ _, ?_, ?_⟩
  · refine filter_stableSort _ _ _ ?_
    intro a _ b _ hpa hpb
    have ha : keyTuple keys t.cols a = kt := by simpa using hpa
    have hb : keyTuple keys t.cols b = kt := by simpa using hpb
    exact lexLt_eq_false_of_keyTuple_eq keys t.cols a b (ha.trans hb.symm)
  · intro htrans
    exact stableSort_pairwise _ _ (lexLt_asymm keys t.cols) htrans

/-- Witness for C3: permutation and stability on the null-bearing example
table sorted by mass, and pairwise ordering on a numeric single-column
table with a tie, its negative-transitivity hypothesis discharged by
computation. -/
theorem sort_orders_and_is_stable_witness :
    (starTable.sortValues [("mass", true)]).rows.Perm starTable.rows
      ∧ (starTable.sortValues [("mass", true)]).rows.filter
            (fun r => keyTuple [("mass", true)] starTable.cols r == [Value.num 80])
          = starTable.rows.filter
              (fun r => keyTuple [("mass", true)] starTable.cols r == [Value.num 80])
      ∧ ((Table.mk ["mass"] [[Value.num 80], [Value.num 50], [Value.num 80]]).sortValues
            [("mass", true)]).rows.Pairwise
          (fun a b => lexLt [("mass", true)]
            (Table.mk ["mass"] [[Value.num 80], [Value.num 50], [Value.num 80]]).cols b a
              = false) :=
  ⟨(sort_orders_and_is_stable starTable [("mass", true)] [Value.num 80]).1,
   (sort_orders_and_is_stable starTable [("mass", true)] [Value.num 80]).2.1,
   (sort_orders_and_is_stable
      (Table.mk ["mass"] [[Value.num 80], [Value.num 50], [Value.num 80]])
      [("mass", true)] [Value.num 80]).2.2 (by decide)⟩

/-- C4: the HTML-table parse returns one Table per table element found, in
document order; a substring filter keeps exactly the tables whose rendered
text contains the substring; on a document with three table elements of
which exactly one contains "Sweden", filtering with "Sweden" returns
exactly that one Table; and the operation fails with NotFoundError when the
filter matches no table. -/
theorem read_html_tables_spec :
    (∀ (doc : HNode) (s : String),
      ((findTagN "table" doc).filter
          (fun n => containsSub (nodeText n) s.toList)).isEmpty = false →
        readHtmlTables doc (some s)
          = Except.ok (((findTagN "table" doc).filter
              (fun n => containsSub (nodeText n) s.toList)).map tableOfNode))
    ∧ (∀ (doc : HNode) (s : String),
        ((findTagN "table" doc).filter
            (fun n => containsSub (nodeText n) s.toList)).isEmpty = true →
          readHtmlTables doc (some s) = Except.error PipelineError.notFoundError)
    ∧ (∀ doc : HNode, (findTagN "table" doc).isEmpty = false →
        readHtmlTables doc none = Except.ok ((findTagN "table" doc).map tableOfNode))
    ∧ (findTagN "table" exDoc = [exTable1, exTable2, exTable3]
        ∧ readHtmlTables exDoc (some "Sweden") = Except.ok [tableOfNode exTable2]) := by
  refine ⟨?_, ?_, ?_, rfl, rfl⟩
  · intro doc s hne
    rw [readHtmlTables]
    simp only [hne, Bool.false_eq_true, ite_false]
  · intro doc s he
    rw [readHtmlTables]
    simp only [he, ite_true]
  · intro doc hne
    rw [readHtmlTables]
    simp only [hne, Bool.false_eq_true, ite_false]

/-- Witness for C4: the filtered scan of the example document. -/
theorem read_html_tables_spec_witness :
    readHtmlTables exDoc (some "Sweden")
      = Except.ok (((findTagN "table" exDoc).filter
          (fun n => containsSub (nodeText n) "Sweden".toList)).map tableOfNode) :=
  read_html_tables_spec.1 exDoc "Sweden" (by decide)

/-- C5: Group+Aggregate with mean aggregation computes each partition's mean
over the non-null values only: nulls are skipped (the mean is unchanged when
nulls are filtered out beforehand), not treated as zero and not propagated;
every group-key value's output row holds its partition's mean; and on the
spec's scenario (species human/human/droid, mass [80, None, 50]) the group
means are 80 and 50. -/
theorem group_mean_skips_nulls :
    (∀ vs : List Value, meanAgg vs = meanAgg (vs.filter (fun v => !(v == Value.null))))
    ∧ (∀ (t : Table) (key val : String) (k : Value), k ∈ distinctVals (colValues t key) →
        [k, meanAgg ((groupRows t key k).map (fun r => getCell t.cols r val))]
          ∈ (t.groupMean key val).rows)
    ∧ (starTable.groupMean "species" "mass").rows
        = [[Value.str "human", Value.num 80], [Value.str "droid", Value.num 50]] := by
  refine ⟨?_, ?_, ?_⟩
  · intro vs
    simp only [meanAgg]
    rw [filterMap_toNum_filter_null]
  · intro t key val k hk
    rw [Table.groupMean]
    exact List.mem_map.mpr ⟨k, hk, rfl⟩
  · have hdv : distinctVals (colValues starTable "species")
        = [Value.str "human", Value.str "droid"] := rfl
    have hv1 : (groupRows starTable "species" (Value.str "human")).map
        (fun r => getCell starTable.cols r "mass") = [Value.num 80, Value.null] := rfl
    have hv2 : (groupRows starTable "species" (Value.str "droid")).map
        (fun r => getCell starTable.cols r "mass") = [Value.num 50] := rfl
    have hm1 : meanAgg [Value.num 80, Value.null] = Value.num 80 := by
      have hxs : List.filterMap toNum [Value.num 80, Value.null] = [(80 : Rat)] := rfl
      simp only [meanAgg, hxs]
      norm_num
    have hm2 : meanAgg [Value.num 50] = Value.num 50 := by
      have hxs : List.filterMap toNum [Value.num 50] = [(50 : Rat)] := rfl
      simp only [meanAgg, hxs]
      norm_num
    simp only [Table.groupMean, hdv, List.map_cons, List.map_nil, hv1, hv2, hm1, hm2]

/-- Witness for C5: the human partition's mean row is in the output. -/
theorem group_mean_skips_nulls_witness :
    [Value.str "human",
        meanAgg ((groupRows starTable "species" (Value.str "human")).map
          (fun r => getCell starTable.cols r "mass"))]
      ∈ (starTable.groupMean "species" "mass").rows :=
  group_mean_skips_nulls.2.1 starTable "species" "mass" (Value.str "human") (by decide)

/-- C6: Transform-within-group (the notebook's per-species demeaning, a
per-partition aggregate broadcast back to the partition's rows) preserves
the input's row count and row order exactly: the output has one row per
input row and stripping the appended column recovers the input rows. -/
theorem transform_within_group_preserves_shape (t : Table) (key val newName : String)
    (h : ∀ r ∈ t.rows, r.length = t.cols.length) :
    (t.transformDemean key val newName).rows.length = t.rows.length
      ∧ (t.transformDemean key val newName).rows.map (fun r => r.take t.cols.length)
          = t.rows := by
  constructor
  · simp [Table.transformDemean]
  · rw [Table.transformDemean]
    simp only [List.map_map]
    have hmc : ∀ r ∈ t.rows, ((fun r => r.take t.cols.length) ∘
        (fun r => r ++ [subV (getCell t.cols r val)
          (meanAgg ((groupRows t key (getCell t.cols r key)).map
            (fun r' => getCell t.cols r' val)))])) r = id r := by
      intro r hr
      simp only [Function.comp_apply, id_eq]
      rw [← h r hr, List.take_left]
    rw [List.map_congr_left hmc, List.map_id]

/-- Witness for C6: demeaning the example table by species. -/
theorem transform_within_group_preserves_shape_witness :
    (starTable.transformDemean "species" "mass" "mass_demean_species").rows.length
        = starTable.rows.length
      ∧ (starTable.transformDemean "species" "mass" "mass_demean_species").rows.map
          (fun r => r.take starTable.cols.length) = starTable.rows :=
  transform_within_group_preserves_shape starTable "species" "mass" "mass_demean_species"
    (by decide)

/-- C7: Filter is idempotent — filtering an already-filtered Table by the
same predicate returns it unchanged — and the kept rows appear in the
output in their input order (the output rows are a sublist of the input
rows). -/
theorem filter_idempotent_and_ordered (t : Table) (p : List Value → Bool) :
    (t.filterRows p).filterRows p = t.filterRows p
      ∧ List.Sublist (t.filterRows p).rows t.rows := by
  refine ⟨?_, List.filter_sublist t.rows⟩
  simp [Table.filterRows, List.filter_filter]

/-- C8: for the CSV text "a,b\n1,2\n3,4\n", the Parser yields a Table with
columns ["a", "b"] and rows [(1, 2), (3, 4)] after numeric coercion. -/
theorem csv_parse_scenario :
    csvParse ("a,b\n1,2\n3,4\n".toList)
      = some ⟨["a", "b"], [[Value.num 1, Value.num 2], [Value.num 3, Value.num 4]]⟩ := by
  decide

/-- C9: the two ways of adding a derived column are equivalent: in-place
assignment (`df["height_m"] = df["height"] / 100`) and functional assign
(`df.assign(height_m=df["height"] / 100)`) produce identical Tables —
same column names, row count, row order and cell values — and this holds
for any assigned column name and values. -/
theorem derived_column_assign_equivalent :
    (∀ (t : Table) (name : String) (vs : List Value),
      setItemCol t name vs = assignCol t name vs)
    ∧ ∀ t : Table, assignStmtHeightM t = assignMethodHeightM t := by
  have main : ∀ (t : Table) (name : String) (vs : List Value),
      setItemCol t name vs = assignCol t name vs := by
    intro t name vs
    cases hc : t.cols.contains name with
    | true =>
      rw [setItemCol, assignCol, if_pos hc, colIdx?_of_contains _ _ hc]
    | false =>
      rw [setItemCol, assignCol, if_neg (by rw [hc]; simp), colIdx?_of_not_contains _ _ hc]
  exact ⟨main, fun t => main t _ _⟩

/-- C10: sampling is deterministic under a fixed random seed: two runs of
the sample operation on equal inputs, each starting from the generator
state produced by the same seed, return exactly the same rows in the same
order. -/
theorem sample_deterministic_under_seed (t : Table) (n seed s1 s2 : Nat)
    (h1 : s1 = seedRng seed) (h2 : s2 = seedRng seed) :
    t.sample n s1 = t.sample n s2 := by
  rw [h1, h2]

/-- Witness for C10: two seeded runs on the example table. -/
theorem sample_deterministic_under_seed_witness :
    starTable.sample 2 (seedRng 10) = starTable.sample 2 (seedRng 10) :=
  sample_deterministic_under_seed starTable 2 10 (seedRng 10) (seedRng 10) rfl rfl

end CfE
